import Mathlib

/-!
# reserve-snapshot: the reserve aggregator and the snapshot polling loop

A shallow embedding of `main.go` (`GetAllMarkets`, `TotalReserve`,
`getTotalReserves`, the polling loop of `startServer`) and of
`config/config.go` (`Config`).

The chain client and the binary decoder belong to the external SDK
(`ontology-go-sdk`, `ontology/common`).  The chain client is a parameter of
every definition; the decoder is modelled once, below, together with the
matching encoders used to state the properties.

Go values `(x, err)` become `Except String x`; a Go `map[string]string` becomes
an association list with unique keys, enumerated by `range` in an order that
the runtime chooses.
-/

namespace ReserveSnapshot

/-! ## Bytes and the zero-copy source -/

/-- One octet. -/
abbrev Byte := Fin 256

/-- Width of a 128-bit integer in bytes (`common.I128_SIZE`). -/
def I128_SIZE : Nat := 16

/-- A fixed-width address, `common.Address = [20]byte`. -/
def Address : Type := { l : List Byte // l.length = 20 }

instance : DecidableEq Address := inferInstanceAs (DecidableEq { l : List Byte // l.length = 20 })

/-- The all-zero address, the zero value of `common.Address`. -/
def Address.zero : Address := ⟨List.replicate 20 0, by simp⟩

/-- Value of a byte string read least-significant byte first
(`binary.LittleEndian.UintN`). -/
def leValue : List Byte → Nat
  | [] => 0
  | b :: bs => b.val + 256 * leValue bs

/-- Value of a byte string read most-significant byte first
(`big.Int.SetBytes`), on the numeric values of the bytes. -/
def beValue (bs : List Nat) : Nat :=
  bs.foldl (fun acc b => acc * 256 + b) 0

/-- Modelled from the spec: `ZeroCopySource.NextBytes` of the SDK's binary
decoder, which is not part of this repository.  The source is represented by
its unread bytes.  Reading `n` bytes returns them and advances; a short read
returns what is left, sets `eof` and exhausts the source. -/
def nextBytes (n : Nat) (s : List Byte) : List Byte × Bool × List Byte :=
  if n ≤ s.length then (s.take n, false, s.drop n) else (s, true, [])

/-- Modelled from the spec: `ZeroCopySource.NextUint16/32/64` of the SDK's
decoder (not in this repository): a little-endian unsigned integer of `w`
bytes, zero with `eof` on a short read. -/
def nextUint (w : Nat) (s : List Byte) : Nat × Bool × List Byte :=
  match nextBytes w s with
  | (_, true, s1) => (0, true, s1)
  | (buf, false, s1) => (leValue buf, false, s1)

/-- Modelled from the spec: `getVarUintSize` of the SDK's decoder (not in this
repository): the length of the canonical variable-length encoding. -/
def getVarUintSize (value : Nat) : Nat :=
  if value < 0xFD then 1
  else if value ≤ 0xFFFF then 3
  else if value ≤ 0xFFFFFFFF then 5
  else 9

/-- The four named results of `NextVarUint`. -/
structure VarUint where
  data : Nat
  size : Nat
  irregular : Bool
  eof : Bool
deriving DecidableEq

/-- Modelled from the spec: `ZeroCopySource.NextVarUint` of the SDK's decoder
(not in this repository), the "variable-length unsigned count" of the spec.
A first byte below `0xFD` is the value itself; `0xFD`, `0xFE`, `0xFF`
announce a little-endian value of 2, 4, 8 bytes.  A short read gives `eof`
with all other results zero; a value that has a shorter encoding than the one
read is `irregular`. -/
def nextVarUint (s : List Byte) : VarUint × List Byte :=
  match s with
  | [] => (⟨0, 0, false, true⟩, [])
  | fb :: s1 =>
    if fb.val = 0xFD then
      match nextUint 2 s1 with
      | (_, true, s2) => (⟨0, 0, false, true⟩, s2)
      | (val, false, s2) => (⟨val, 3, decide (3 ≠ getVarUintSize val), false⟩, s2)
    else if fb.val = 0xFE then
      match nextUint 4 s1 with
      | (_, true, s2) => (⟨0, 0, false, true⟩, s2)
      | (val, false, s2) => (⟨val, 5, decide (5 ≠ getVarUintSize val), false⟩, s2)
    else if fb.val = 0xFF then
      match nextUint 8 s1 with
      | (_, true, s2) => (⟨0, 0, false, true⟩, s2)
      | (val, false, s2) => (⟨val, 9, decide (9 ≠ getVarUintSize val), false⟩, s2)
    else (⟨fb.val, 1, decide (1 ≠ getVarUintSize fb.val), false⟩, s1)

/-- Modelled from the spec: `ZeroCopySource.NextAddress` of the SDK's decoder
(not in this repository): the next 20 bytes as an address, the zero address
with `eof` on a short read. -/
def nextAddress (s : List Byte) : Address × Bool × List Byte :=
  if h : 20 ≤ s.length then (⟨s.take 20, by simp; omega⟩, false, s.drop 20)
  else (Address.zero, true, [])

/-- Modelled from the spec: `ZeroCopySource.NextI128` of the SDK's decoder
(not in this repository): the next 16 bytes, sixteen zero bytes with `eof` on
a short read. -/
def nextI128 (s : List Byte) : List Byte × Bool × List Byte :=
  match nextBytes I128_SIZE s with
  | (_, true, s1) => (List.replicate 16 0, true, s1)
  | (buf, false, s1) => (buf, false, s1)

/-- Modelled from the spec: `I128.ToBigInt` of the SDK (not in this
repository), the "128-bit signed integer" of the spec: the bytes are a
little-endian two's-complement number.  The bytes are reversed; when the top
bit is set they are complemented, read as an unsigned number, incremented and
negated. -/
def I128.toBigInt (ba : List Byte) : Int :=
  match ba.reverse with
  | [] => 0
  | b0 :: rest =>
    if b0.val / 128 = 1 then
      -(((beValue ((b0 :: rest).map (fun b => 255 - b.val)) + 1 : Nat) : Int))
    else
      ((beValue ((b0 :: rest).map (fun b => b.val)) : Nat) : Int)

/-- One lower-case hexadecimal digit. -/
def hexDigit (n : Nat) : Char :=
  if n < 10 then Char.ofNat (48 + n) else Char.ofNat (87 + n)

/-- Modelled from the spec: `Address.ToHexString` of the SDK (not in this
repository): the lower-case hexadecimal text of the address bytes taken in
reverse order. -/
def Address.toHexString (a : Address) : String :=
  String.mk (a.val.reverse.flatMap (fun b => [hexDigit (b.val / 16), hexDigit (b.val % 16)]))

/-- Modelled from the spec: `big.Int.String` of the Go library, the "decimal
string representation" of the spec: the decimal digits of the magnitude,
preceded by a minus sign for a negative number. -/
def bigIntString (v : Int) : String :=
  match v with
  | Int.ofNat n => Nat.repr n
  | Int.negSucc n => "-" ++ Nat.repr (n + 1)

/-! ## Encoders used to state the properties -/

/-- The `w` low-order bytes of `v`, least significant first. -/
def leBytes : Nat → Nat → List Byte
  | 0, _ => []
  | w + 1, v => Fin.ofNat (v % 256) :: leBytes w (v / 256)

/-- The canonical variable-length encoding of an unsigned 64-bit count
(the SDK's `WriteVarUint`). -/
def encodeVarUint (n : Nat) : List Byte :=
  if n < 0xFD then [Fin.ofNat n]
  else if n ≤ 0xFFFF then 0xFD :: leBytes 2 n
  else if n ≤ 0xFFFFFFFF then 0xFE :: leBytes 4 n
  else 0xFF :: leBytes 8 n

/-- The buffer holding a count followed by that many addresses. -/
def encodeMarkets (ms : List Address) : List Byte :=
  encodeVarUint ms.length ++ ms.flatMap (fun a => a.val)

/-- The 128-bit little-endian two's-complement encoding of `v`. -/
def encodeI128 (v : Int) : List Byte :=
  leBytes 16 (v % 2 ^ 128).toNat

/-- Decimal digits to a number; `none` on an empty or non-digit text. -/
def parseDigits (cs : List Char) : Option Nat :=
  if cs ≠ [] ∧ cs.all Char.isDigit then
    some (cs.foldl (fun n c => n * 10 + (c.toNat - 48)) 0)
  else none

/-- Arbitrary-precision decimal parsing: an optional minus sign followed by
decimal digits. -/
def parseBigInt (s : String) : Option Int :=
  match s.data with
  | '-' :: ds => (parseDigits ds).map (fun n => -(n : Int))
  | ds => (parseDigits ds).map (fun n => (n : Int))

/-! ## The chain client -/

/-- What one read-only invocation gives: the invocation itself may fail, the
conversion of its result to a byte array may fail, or a byte buffer comes
back. -/
inductive PreExecResult where
  | invokeErr (err : String)
  | toByteArrayErr (err : String)
  | bytes (r : List Byte)
deriving DecidableEq

/-- The chain client, a parameter of the aggregator.  `preExec call addr
method` is the outcome of `sdk.WasmVM.PreExecInvokeWasmVMContract(addr, method,
[])` followed by `Result.ToByteArray()` when it is the `call`-th invocation
(counted from 0) of one aggregation; the index lets the chain answer the same
question differently at different moments. -/
structure OntologySdk where
  preExec : Nat → Address → String → PreExecResult

/-! ## config/config.go -/

/-- The configuration object; `AssetMap` is a Go map, read by key.  No function
of the program reads `ScanInterval`. -/
structure Config where
  JsonRpcAddress : String
  FlashPoolAddress : String
  AssetMap : List (String × String)
  ScanInterval : Nat

/-- Reading `m[key]` on a Go `map[string]string`: the empty string when the
key is absent. -/
def mapIndex (m : List (String × String)) (key : String) : String :=
  match m with
  | [] => ""
  | (k, v) :: rest => if k = key then v else mapIndex rest key

/-! ## main.go -/

/-- The loop of `GetAllMarkets` (lines 123-129): `n` addresses remain to be
read from `source`, `allMarkets` holds those read so far. -/
def readMarkets : Nat → List Byte → List Address → Except String (List Address)
  | 0, _, allMarkets => .ok allMarkets
  | n + 1, source, allMarkets =>
    match nextAddress source with
    | (_, true, _) => .error "getAllMarkets, source.NextAddress error"
    | (addr, false, source1) => readMarkets n source1 (allMarkets ++ [addr])

/-- The function `GetAllMarkets` (lines 107-131), as invocation number `call`. -/
def GetAllMarkets (sdk : OntologySdk) (call : Nat) (flashAddress : Address) :
    Except String (List Address) :=
  match sdk.preExec call flashAddress "allMarkets" with
  | .invokeErr err =>
    .error ("getAllMarkets, this.sdk.WasmVM.PreExecInvokeWasmVMContract error: " ++ err)
  | .toByteArrayErr err =>
    .error ("getAllMarkets, preExecResult.Result.ToByteArray error: " ++ err)
  | .bytes r =>
    match nextVarUint r with
    | (l, source) =>
      if l.irregular || l.eof then .error "getAllMarkets, source.NextVarUint error"
      else readMarkets l.data source []

/-- The function `getTotalReserves` (lines 150-166), as invocation number `call`. -/
def getTotalReserves (sdk : OntologySdk) (call : Nat) (contractAddress : Address) :
    Except String Int :=
  match sdk.preExec call contractAddress "totalReserves" with
  | .invokeErr err =>
    .error ("getTotalReserves, this.sdk.WasmVM.PreExecInvokeWasmVMContract error: " ++ err)
  | .toByteArrayErr err =>
    .error ("getTotalReserves, preExecResult.Result.ToByteArray error: " ++ err)
  | .bytes r =>
    match nextI128 r with
    | (_, true, _) => .error "getTotalReserves, source.NextI128 error"
    | (amount, false, _) => .ok (I128.toBigInt amount)

/-- The assignment `m[k] = v` on a Go map: the value of an existing key is
replaced, a new key adds an entry. -/
def mapSet (m : List (String × String)) (k v : String) : List (String × String) :=
  match m with
  | [] => [(k, v)]
  | (k1, v1) :: rest => if k1 = k then (k, v) :: rest else (k1, v1) :: mapSet rest k v

/-- The loop of `TotalReserve` (lines 139-146) over the markets still to be
queried; `call` numbers the next invocation, `result` is the map built so
far. -/
def totalReserveLoop (sdk : OntologySdk) (cfg : Config) :
    List Address → Nat → List (String × String) → Except String (List (String × String))
  | [], _, result => .ok result
  | address :: rest, call, result =>
    let name := mapIndex cfg.AssetMap address.toHexString
    match getTotalReserves sdk call address with
    | .error err => .error ("TotalReserve, this.getTotalReserves error: " ++ err)
    | .ok reserveBalance =>
      totalReserveLoop sdk cfg rest (call + 1) (mapSet result name (bigIntString reserveBalance))

/-- The function `TotalReserve` (lines 133-148): the listing is invocation 0, the market
in position `i` of the listing is queried by invocation `i + 1`. -/
def TotalReserve (sdk : OntologySdk) (cfg : Config) (flashAddress : Address) :
    Except String (List (String × String)) :=
  match GetAllMarkets sdk 0 flashAddress with
  | .error err => .error ("TotalReserve, this.GetAllMarkets error: " ++ err)
  | .ok allMarkets => totalReserveLoop sdk cfg allMarkets 1 []

/-! ## The polling loop of `startServer` (lines 83-104) -/

/-- What the program does to the outside world during the polling loop, in
the order in which it does it. -/
inductive Event where
  /-- File creation `os.Create("data/" + now.String())` with the captured instant
  (line 86). -/
  | create (now : Int)
  /-- The call of `TotalReserve` (line 88) and whether it returned an error. -/
  | callTotalReserve (failed : Bool)
  /-- Error log `log.Errorf("TotalReserve, err: %s", err)` (line 90). -/
  | logError (msg : String)
  /-- Buffered write `w.WriteString(s)` (lines 93-96). -/
  | writeString (s : String)
  /-- Flush `w.Flush()` (line 98). -/
  | flush
  /-- Close `f.Close()` (line 99). -/
  | close
  /-- Final log `log.Infof("Done")` followed by the return (lines 101-102). -/
  | logDone
deriving DecidableEq

/-- What the outside world supplies to one iteration of the loop: the wall
clock read at line 85 (nanoseconds since the epoch, `time.Now().UTC()`), the
chain's answers during the iteration, and the order in which the runtime
enumerates a map in `range`. -/
structure Cycle where
  now : Int
  sdk : OntologySdk
  order : List (String × String) → List (String × String)

/-- The runtime enumerates every entry of a map exactly once, in an order of
its choice. -/
def RangeOrder (c : Cycle) : Prop :=
  ∀ m, (c.order m).Perm m

/-- The start instant of line 79, 2020-10-22 23:59:00 UTC, in nanoseconds. -/
def next : Int := 1603411140 * 1000000000

/-- The duration `2 * time.Minute` of line 100, in nanoseconds. -/
def twoMinutes : Int := 2 * (60 * 1000000000)

/-- The four writes of lines 93-96 for each entry, in enumeration order. -/
def rangeWrites : List (String × String) → List Event
  | [] => []
  | (k, v) :: rest =>
    [.writeString k, .writeString "\t", .writeString v, .writeString "\n"] ++ rangeWrites rest

/-- One iteration of the loop (lines 85-103) with start instant `start` (in the
program the constant `next` of line 79): the events it performs and whether it
returns from `startServer`.  A failed `TotalReserve` leaves `result` nil, over
which `range` enumerates nothing.  The loop body contains no wait: the next
iteration starts as soon as this one ends. -/
def loopBody (cfg : Config) (flashAddress : Address) (start : Int) (c : Cycle) :
    List Event × Bool :=
  let now := c.now
  let evCreate := [Event.create now]
  let (result, evCall) :=
    match TotalReserve c.sdk cfg flashAddress with
    | .error err =>
      (([] : List (String × String)),
        [Event.callTotalReserve true, Event.logError ("TotalReserve, err: " ++ err)])
    | .ok result => (result, [Event.callTotalReserve false])
  let evs := evCreate ++ evCall ++ rangeWrites (c.order result) ++ [Event.flush, Event.close]
  if now > start + twoMinutes then (evs ++ [Event.logDone], true) else (evs, false)

/-- The loop `for { ... }` of lines 83-104, run for at most `fuel` iterations
starting with iteration `k` of the environment: the events performed and
whether the loop has returned. -/
def pollingLoop (cfg : Config) (flashAddress : Address) (start : Int) (env : Nat → Cycle) :
    Nat → Nat → List Event × Bool
  | 0, _ => ([], false)
  | fuel + 1, k =>
    match loopBody cfg flashAddress start (env k) with
    | (evs, true) => (evs, true)
    | (evs, false) =>
      match pollingLoop cfg flashAddress start env fuel (k + 1) with
      | (evs1, done) => (evs ++ evs1, done)

/-- The bytes handed to the file writer by a run of events. -/
def written : List Event → String
  | [] => ""
  | .writeString s :: rest => s ++ written rest
  | _ :: rest => written rest

/-- The instants of the cycles executed by a run of events: one per file
creation. -/
def cycleTimes : List Event → List Int
  | [] => []
  | .create now :: rest => now :: cycleTimes rest
  | _ :: rest => cycleTimes rest

/-- The line written for one entry of the result map. -/
def entryLine (e : String × String) : String :=
  e.1 ++ "\t" ++ e.2 ++ "\n"

/-- The display name of a market (line 140). -/
def marketName (cfg : Config) (address : Address) : String :=
  mapIndex cfg.AssetMap address.toHexString

/-- The map over which line 92 ranges: the mapping returned by `TotalReserve`,
or the nil map, which has no entries, when it returned an error. -/
def rangedMap (r : Except String (List (String × String))) : List (String × String) :=
  match r with
  | .error _ => []
  | .ok result => result

/-- Decidable equality of results, for evaluating the definitions. -/
instance instDecidableEqExcept {ε α : Type} [DecidableEq ε] [DecidableEq α] :
    DecidableEq (Except ε α)
  | .ok a, .ok b =>
    if h : a = b then isTrue (by rw [h]) else isFalse (fun h1 => h (Except.ok.inj h1))
  | .error a, .error b =>
    if h : a = b then isTrue (by rw [h]) else isFalse (fun h1 => h (Except.error.inj h1))
  | .ok _, .error _ => isFalse (fun h => Except.noConfusion h)
  | .error _, .ok _ => isFalse (fun h => Except.noConfusion h)

/-- Buffers that do not hold a count followed by that many addresses: the
count is missing or cut short, it is written in a longer form than its value
needs, or fewer complete addresses follow than it announces. -/
inductive Malformed : List Byte → Prop where
  | missing : Malformed []
  | short16 (t : List Byte) : t.length < 2 → Malformed (0xFD :: t)
  | short32 (t : List Byte) : t.length < 4 → Malformed (0xFE :: t)
  | short64 (t : List Byte) : t.length < 8 → Malformed (0xFF :: t)
  | irregular16 (t : List Byte) : 2 ≤ t.length → leValue (t.take 2) < 0xFD →
      Malformed (0xFD :: t)
  | irregular32 (t : List Byte) : 4 ≤ t.length → leValue (t.take 4) ≤ 0xFFFF →
      Malformed (0xFE :: t)
  | irregular64 (t : List Byte) : 8 ≤ t.length → leValue (t.take 8) ≤ 0xFFFFFFFF →
      Malformed (0xFF :: t)
  | truncated (n : Nat) (body : List Byte) : n < 2 ^ 64 → body.length < 20 * n →
      Malformed (encodeVarUint n ++ body)

/-- A market query fails: the invocation fails, the conversion of its result
fails, or the buffer is too short to hold a 128-bit integer. -/
def queryFails (sdk : OntologySdk) (call : Nat) (address : Address) : Bool :=
  match sdk.preExec call address "totalReserves" with
  | .invokeErr _ => true
  | .toByteArrayErr _ => true
  | .bytes r => decide (r.length < 16)

/-- The answers of the markets of a listing, queried in order from invocation `call` on. -/
def queryReserves (sdk : OntologySdk) : List Address → Nat → Except String (List Int)
  | [], _ => .ok []
  | address :: rest, call =>
    match getTotalReserves sdk call address with
    | .error err => .error err
    | .ok v =>
      match queryReserves sdk rest (call + 1) with
      | .error err => .error err
      | .ok vs => .ok (v :: vs)

/-- The map obtained from `result` by the assignments `m[k] = v` in order. -/
def assignAll (result : List (String × String)) (kvs : List (String × String)) :
    List (String × String) :=
  kvs.foldl (fun m p => mapSet m p.1 p.2) result

/-- The number denoted by a run of characters read as decimal digits. -/
def digitsValue (cs : List Char) : Nat :=
  cs.foldl (fun n c => n * 10 + (c.toNat - 48)) 0

/-! ## Example inputs -/

/-- The market `aaaa...aa`. -/
def marketAA : Address := ⟨List.replicate 20 0xAA, by simp⟩

/-- The market `bbbb...bb`. -/
def marketBB : Address := ⟨List.replicate 20 0xBB, by simp⟩

/-- The root contract of the examples. -/
def flashPool : Address := ⟨List.replicate 20 0x01, by simp⟩

/-- A configuration naming the two example markets ETH and DAI. -/
def exampleConfig : Config :=
  ⟨"http://127.0.0.1:20336", "0101010101010101010101010101010101010101",
    [("aaaaaaaaaaaaaaaaaaaaaaaaaaaaaaaaaaaaaaaa", "ETH"),
     ("bbbbbbbbbbbbbbbbbbbbbbbbbbbbbbbbbbbbbbbb", "DAI")], 30⟩

/-- A configuration whose asset map names no market. -/
def unnamedConfig : Config :=
  ⟨"http://127.0.0.1:20336", "0101010101010101010101010101010101010101", [], 30⟩

/-- A stub chain client: invocation 0 answers the listing `markets`, invocation
`i + 1` answers the `i`-th of `reserves`. -/
def stubSdk (markets : List Address) (reserves : List Int) : OntologySdk :=
  ⟨fun call _ _ =>
    match call with
    | 0 => .bytes (encodeMarkets markets)
    | i + 1 =>
      match reserves[i]? with
      | some r => .bytes (encodeI128 r)
      | none => .invokeErr "unknown contract"⟩

/-- The stub of the end-to-end example: two markets with reserves 100 and 200. -/
def exampleSdk : OntologySdk := stubSdk [marketAA, marketBB] [100, 200]

/-- A chain client whose every invocation fails. -/
def failingSdk : OntologySdk := ⟨fun _ _ _ => .invokeErr "connection refused"⟩

/-- A chain client whose listing announces two markets and holds one. -/
def truncatedSdk : OntologySdk := ⟨fun _ _ _ => .bytes (encodeVarUint 2 ++ marketAA.val)⟩

/-- A chain client that lists the two example markets and fails on the second. -/
def secondFailsSdk : OntologySdk := stubSdk [marketAA, marketBB] [100]

/-- A clock that advances by 30 seconds per cycle from the start instant of
the program, over the example chain client, with maps enumerated in insertion
order. -/
def thirtySecondEnv (k : Nat) : Cycle :=
  ⟨next + 30000000000 * k, exampleSdk, id⟩

/-- A cycle at the start instant over the example chain client, its map
enumerated in insertion order. -/
def insertionOrderCycle : Cycle := ⟨next, exampleSdk, id⟩

/-- A cycle 30 seconds later over the same chain client, its map enumerated in
the reverse order. -/
def reverseOrderCycle : Cycle := ⟨next + 30000000000, exampleSdk, List.reverse⟩

/-- A cycle at the start instant during which every invocation fails. -/
def failingCycle : Cycle := ⟨next, failingSdk, id⟩

/-- A clock that advances by 30 seconds per cycle while every invocation
fails. -/
def failingEnv (k : Nat) : Cycle :=
  ⟨next + 30000000000 * k, failingSdk, id⟩

/-- A stub with one market whose reserve is 123456789012345678901234. -/
def largeReserveSdk : OntologySdk := stubSdk [marketAA] [123456789012345678901234]

set_option maxRecDepth 100000

/-! ## The binary decoder on encoded buffers -/

theorem leBytes_length (w v : Nat) : (leBytes w v).length = w := by
  induction w generalizing v with
  | zero => rfl
  | succ w ih => simp [leBytes, ih]

theorem leValue_leBytes (w v : Nat) : leValue (leBytes w v) = v % 256 ^ w := by
  induction w generalizing v with
  | zero => simp [leBytes, leValue, Nat.mod_one]
  | succ w ih =>
    simp only [leBytes, leValue, ih, Fin.ofNat, Nat.mod_mod]
    rw [pow_succ, Nat.mul_comm (256 ^ w) 256, Nat.mod_mul]

theorem leValue_lt (bs : List Byte) : leValue bs < 256 ^ bs.length := by
  induction bs with
  | nil => simp [leValue]
  | cons b bs ih =>
    simp only [leValue, List.length_cons, pow_succ]
    have := b.isLt
    omega

theorem leBytes_leValue (bs : List Byte) : leBytes bs.length (leValue bs) = bs := by
  induction bs with
  | nil => rfl
  | cons b bs ih =>
    have hb := b.isLt
    simp only [List.length_cons, leBytes, leValue]
    have h1 : (b.val + 256 * leValue bs) % 256 = b.val := by omega
    have h2 : (b.val + 256 * leValue bs) / 256 = leValue bs := by omega
    rw [h1, h2, ih]
    congr 1
    apply Fin.ext
    simp [Fin.ofNat, Nat.mod_eq_of_lt hb]

theorem nextUint_leBytes (w v : Nat) (rest : List Byte) :
    nextUint w (leBytes w v ++ rest) = (v % 256 ^ w, false, rest) := by
  simp [nextUint, nextBytes, leBytes_length, leValue_leBytes, List.take_append_eq_append_take, List.take_of_length_le, List.drop_append_eq_append_drop, List.drop_of_length_le]

theorem nextVarUint_encodeVarUint (n : Nat) (hn : n < 2 ^ 64) (rest : List Byte) :
    nextVarUint (encodeVarUint n ++ rest) = (⟨n, getVarUintSize n, false, false⟩, rest) := by
  have b253 : ((253 : Byte) : Nat) = 253 := rfl
  have b254 : ((254 : Byte) : Nat) = 254 := rfl
  have b255 : ((255 : Byte) : Nat) = 255 := rfl
  unfold encodeVarUint
  split_ifs with h1 h2 h3
  · have e : (Fin.ofNat n : Byte).val = n := Nat.mod_eq_of_lt (by omega)
    have g : getVarUintSize n = 1 := by simp [getVarUintSize, h1]
    have n1 : n ≠ 253 := by omega
    have n2 : n ≠ 254 := by omega
    have n3 : n ≠ 255 := by omega
    simp [nextVarUint, e, g, n1, n2, n3]
  · have e : n % 65536 = n := Nat.mod_eq_of_lt (by omega)
    have g : getVarUintSize n = 3 := by simp [getVarUintSize, h1, h2]
    simp [nextVarUint, nextUint_leBytes, e, g, b253]
  · have e : n % 4294967296 = n := Nat.mod_eq_of_lt (by omega)
    have g : getVarUintSize n = 5 := by simp [getVarUintSize, h1, h2, h3]
    simp [nextVarUint, nextUint_leBytes, e, g, b254]
  · have e : n % 18446744073709551616 = n := Nat.mod_eq_of_lt (by omega)
    have g : getVarUintSize n = 9 := by simp [getVarUintSize, h1, h2, h3]
    simp [nextVarUint, nextUint_leBytes, e, g, b255]

theorem nextAddress_append (a : Address) (rest : List Byte) :
    nextAddress (a.val ++ rest) = (a, false, rest) := by
  have h := a.property
  simp [nextAddress, h, List.take_append_eq_append_take, List.drop_append_eq_append_drop, List.take_of_length_le, List.drop_of_length_le]

theorem readMarkets_encoded (ms : List Address) (rest : List Byte) (acc : List Address) :
    readMarkets ms.length (ms.flatMap (fun a => a.val) ++ rest) acc = .ok (acc ++ ms) := by
  induction ms generalizing acc with
  | nil => simp [readMarkets]
  | cons a ms ih =>
    simp only [List.length_cons, List.flatMap_cons, List.append_assoc, readMarkets, nextAddress_append]
    rw [ih]
    simp

/-- The listing decoded from an encoded buffer. -/
theorem GetAllMarkets_encoded (sdk : OntologySdk) (call : Nat) (flashAddress : Address)
    (ms : List Address) (hlen : ms.length < 2 ^ 64)
    (hr : sdk.preExec call flashAddress "allMarkets" = .bytes (encodeMarkets ms)) :
    GetAllMarkets sdk call flashAddress = .ok ms := by
  have h := readMarkets_encoded ms [] []
  simp only [List.append_nil, List.nil_append] at h
  simp [GetAllMarkets, hr, encodeMarkets, nextVarUint_encodeVarUint _ hlen, h]

theorem readMarkets_short (n : Nat) (s : List Byte) (acc : List Address)
    (h : s.length < 20 * n) :
    readMarkets n s acc = .error "getAllMarkets, source.NextAddress error" := by
  induction n generalizing s acc with
  | zero => omega
  | succ n ih =>
    unfold readMarkets nextAddress
    by_cases h20 : 20 ≤ s.length
    · simp only [h20, dite_true]
      apply ih
      simp; omega
    · simp [h20]

theorem readMarkets_ok (n : Nat) (s : List Byte) (acc ms : List Address)
    (h : readMarkets n s acc = .ok ms) :
    ∃ new extra, ms = acc ++ new ∧ new.length = n ∧ s = new.flatMap (fun a => a.val) ++ extra := by
  induction n generalizing s acc with
  | zero =>
    simp only [readMarkets, Except.ok.injEq] at h
    exact ⟨[], s, by simp [h], rfl, by simp⟩
  | succ n ih =>
    unfold readMarkets nextAddress at h
    by_cases h20 : 20 ≤ s.length
    · simp only [h20, dite_true] at h
      obtain ⟨new, extra, h1, h2, h3⟩ := ih _ _ h
      refine ⟨⟨s.take 20, by simp; omega⟩ :: new, extra, by simp [h1], by simp [h2], ?_⟩
      simp only [List.flatMap_cons, List.append_assoc, ← h3, List.take_append_drop]
    · simp [h20] at h

theorem nextUint_eq (w : Nat) (s : List Byte) :
    nextUint w s = if w ≤ s.length then (leValue (s.take w), false, s.drop w)
      else (0, true, []) := by
  unfold nextUint nextBytes
  split_ifs <;> rfl

theorem wide_regular (w : Nat) (t : List Byte) (hw : w ≤ t.length) :
    leValue (t.take w) < 256 ^ w ∧
      t = leBytes w (leValue (t.take w)) ++ t.drop w := by
  have hl : (t.take w).length = w := by simp [hw]
  constructor
  · have := leValue_lt (t.take w)
    rwa [hl] at this
  · have := leBytes_leValue (t.take w)
    rw [hl] at this
    rw [this, List.take_append_drop]

theorem nextVarUint_regular (r : List Byte) (l : VarUint) (src : List Byte)
    (h : nextVarUint r = (l, src)) (hi : l.irregular = false) (he : l.eof = false) :
    l.data < 2 ^ 64 ∧ r = encodeVarUint l.data ++ src := by
  cases r with
  | nil =>
    simp only [nextVarUint, Prod.mk.injEq] at h
    rw [← h.1] at he
    simp at he
  | cons fb t =>
    have hfb := fb.isLt
    unfold nextVarUint at h
    simp only [nextUint_eq] at h
    split_ifs at h with c1 k c2 k c3 k
    all_goals simp only [Prod.mk.injEq] at h
    all_goals obtain ⟨h1, h2⟩ := h
    all_goals subst h1
    all_goals simp only [decide_eq_false_iff_not, not_not, Bool.true_eq_false, Bool.false_eq_true] at hi he
    all_goals subst h2
    · obtain ⟨hlt, ht⟩ := wide_regular 2 t k
      have hg : ¬ leValue (t.take 2) < 253 ∧ leValue (t.take 2) ≤ 65535 := by
        unfold getVarUintSize at hi
        split_ifs at hi <;> omega
      have hb : fb = 253 := Fin.ext c1
      refine ⟨by simp only []; omega, ?_⟩
      simp only [encodeVarUint, hg.1, hg.2, if_false, if_true, List.cons_append, hb]
      rw [← ht]
    · obtain ⟨hlt, ht⟩ := wide_regular 4 t k
      have hg : ¬ leValue (t.take 4) < 253 ∧ ¬ leValue (t.take 4) ≤ 65535 ∧
          leValue (t.take 4) ≤ 4294967295 := by
        unfold getVarUintSize at hi
        split_ifs at hi <;> omega
      have hb : fb = 254 := Fin.ext c2
      refine ⟨by simp only []; omega, ?_⟩
      simp only [encodeVarUint, hg.1, hg.2.1, hg.2.2, if_false, if_true, List.cons_append, hb]
      rw [← ht]
    · obtain ⟨hlt, ht⟩ := wide_regular 8 t k
      have hg : ¬ leValue (t.take 8) < 253 ∧ ¬ leValue (t.take 8) ≤ 65535 ∧
          ¬ leValue (t.take 8) ≤ 4294967295 := by
        unfold getVarUintSize at hi
        split_ifs at hi <;> omega
      have hb : fb = 255 := Fin.ext c3
      refine ⟨by simp only []; norm_num at hlt ⊢; omega, ?_⟩
      simp only [encodeVarUint, hg.1, hg.2.1, hg.2.2, if_false, List.cons_append, hb]
      rw [← ht]
    · have hlt : fb.val < 253 := by omega
      refine ⟨by simp only []; omega, ?_⟩
      have e : (Fin.ofNat fb.val : Byte) = fb := Fin.ext (Nat.mod_eq_of_lt hfb)
      simp [encodeVarUint, hlt, e]


theorem GetAllMarkets_bytes (sdk : OntologySdk) (call : Nat) (flashAddress : Address)
    (r : List Byte) (hr : sdk.preExec call flashAddress "allMarkets" = .bytes r) :
    GetAllMarkets sdk call flashAddress =
      if (nextVarUint r).1.irregular || (nextVarUint r).1.eof then
        .error "getAllMarkets, source.NextVarUint error"
      else readMarkets (nextVarUint r).1.data (nextVarUint r).2 [] := by
  simp only [GetAllMarkets, hr]

theorem nextVarUint_malformed (r : List Byte) (h : Malformed r) :
    ((nextVarUint r).1.irregular || (nextVarUint r).1.eof) = true ∨
      ((nextVarUint r).1.irregular = false ∧ (nextVarUint r).1.eof = false ∧
        (nextVarUint r).2.length < 20 * (nextVarUint r).1.data) := by
  have b253 : ((253 : Byte) : Nat) = 253 := rfl
  have b254 : ((254 : Byte) : Nat) = 254 := rfl
  have b255 : ((255 : Byte) : Nat) = 255 := rfl
  cases h with
  | missing => left; rfl
  | short16 t ht =>
    left
    have : ¬ 2 ≤ t.length := by omega
    simp [nextVarUint, nextUint_eq, b253, this]
  | short32 t ht =>
    left
    have : ¬ 4 ≤ t.length := by omega
    simp [nextVarUint, nextUint_eq, b254, this]
  | short64 t ht =>
    left
    have : ¬ 8 ≤ t.length := by omega
    simp [nextVarUint, nextUint_eq, b255, this]
  | irregular16 t ht hv =>
    left
    simp [nextVarUint, nextUint_eq, b253, ht, getVarUintSize, hv]
  | irregular32 t ht hv =>
    left
    simp only [nextVarUint, nextUint_eq, b254, ht, getVarUintSize]
    simp only [if_true, Bool.or_false, decide_eq_true_eq]
    norm_num
    split_ifs <;> omega
  | irregular64 t ht hv =>
    left
    simp only [nextVarUint, nextUint_eq, b255, ht, getVarUintSize]
    simp only [if_true, Bool.or_false, decide_eq_true_eq]
    norm_num
    split_ifs <;> omega
  | truncated n body hn hb =>
    right
    rw [nextVarUint_encodeVarUint n hn body]
    exact ⟨rfl, rfl, hb⟩

/-- C2: a buffer whose count is missing, irregular or larger than the number
of complete addresses that follow makes `GetAllMarkets` fail, and a successful
result always holds exactly the announced addresses. -/
theorem GetAllMarkets_rejects_malformed (sdk : OntologySdk) (call : Nat)
    (flashAddress : Address) (r : List Byte)
    (hr : sdk.preExec call flashAddress "allMarkets" = .bytes r) :
    (Malformed r →
      GetAllMarkets sdk call flashAddress = .error "getAllMarkets, source.NextVarUint error" ∨
      GetAllMarkets sdk call flashAddress = .error "getAllMarkets, source.NextAddress error") ∧
    (∀ ms, GetAllMarkets sdk call flashAddress = .ok ms →
      ms.length = (nextVarUint r).1.data ∧ ∃ extra, r = encodeMarkets ms ++ extra) := by
  rw [GetAllMarkets_bytes sdk call flashAddress r hr]
  constructor
  · intro hm
    rcases nextVarUint_malformed r hm with h | ⟨h1, h2, h3⟩
    · left; rw [if_pos h]
    · right
      rw [if_neg (by simp [h1, h2])]
      exact readMarkets_short _ _ _ h3
  · intro ms hok
    by_cases hc : ((nextVarUint r).1.irregular || (nextVarUint r).1.eof) = true
    · rw [if_pos hc] at hok; cases hok
    · rw [if_neg hc] at hok
      simp only [Bool.or_eq_true, not_or, Bool.not_eq_true] at hc
      obtain ⟨new, extra, h1, h2, h3⟩ := readMarkets_ok _ _ _ _ hok
      have h5 := (nextVarUint_regular r (nextVarUint r).1 (nextVarUint r).2 rfl hc.1 hc.2).2
      simp only [List.nil_append] at h1
      subst h1
      refine ⟨h2, extra, ?_⟩
      calc r = encodeVarUint (nextVarUint r).1.data ++ (nextVarUint r).2 := h5
        _ = encodeMarkets ms ++ extra := by
          rw [h3, encodeMarkets, h2, List.append_assoc]

/-! ## The aggregator -/
theorem getTotalReserves_fails (sdk : OntologySdk) (call : Nat) (address : Address)
    (h : queryFails sdk call address = true) :
    ∃ err, getTotalReserves sdk call address = .error err := by
  unfold queryFails at h
  unfold getTotalReserves
  cases hp : sdk.preExec call address "totalReserves" with
  | invokeErr e => exact ⟨_, rfl⟩
  | toByteArrayErr e => exact ⟨_, rfl⟩
  | bytes r =>
    rw [hp] at h
    have : ¬ 16 ≤ r.length := by simpa using h
    simp [nextI128, nextBytes, I128_SIZE, this]

theorem getTotalReserves_succeeds (sdk : OntologySdk) (call : Nat) (address : Address)
    (h : queryFails sdk call address = false) :
    ∃ v, getTotalReserves sdk call address = .ok v := by
  unfold queryFails at h
  unfold getTotalReserves
  cases hp : sdk.preExec call address "totalReserves" with
  | invokeErr e => rw [hp] at h; cases h
  | toByteArrayErr e => rw [hp] at h; cases h
  | bytes r =>
    rw [hp] at h
    have : 16 ≤ r.length := by simpa using h
    simp [nextI128, nextBytes, I128_SIZE, this]

theorem totalReserveLoop_eq (sdk : OntologySdk) (cfg : Config) (ms : List Address) (call : Nat)
    (result : List (String × String)) :
    totalReserveLoop sdk cfg ms call result =
      match queryReserves sdk ms call with
      | .error err => .error ("TotalReserve, this.getTotalReserves error: " ++ err)
      | .ok vs =>
        .ok (assignAll result
          (List.zipWith (fun a v => (marketName cfg a, bigIntString v)) ms vs)) := by
  induction ms generalizing call result with
  | nil => simp [totalReserveLoop, queryReserves, assignAll]
  | cons a ms ih =>
    unfold totalReserveLoop queryReserves
    cases hq : getTotalReserves sdk call a with
    | error e => simp
    | ok v =>
      simp only [ih]
      cases hrest : queryReserves sdk ms (call + 1) with
      | error e => simp
      | ok vs => simp [assignAll, marketName]

theorem queryReserves_length (sdk : OntologySdk) (ms : List Address) (call : Nat) (vs : List Int)
    (h : queryReserves sdk ms call = .ok vs) : vs.length = ms.length := by
  induction ms generalizing call vs with
  | nil => simp [queryReserves] at h; simp [← h]
  | cons a ms ih =>
    unfold queryReserves at h
    cases hq : getTotalReserves sdk call a with
    | error e => simp [hq] at h
    | ok v =>
      cases hrest : queryReserves sdk ms (call + 1) with
      | error e => simp [hq, hrest] at h
      | ok ws =>
        simp [hq, hrest] at h
        subst h
        simp [ih _ _ hrest]

theorem queryReserves_of_fails (sdk : OntologySdk) (ms : List Address) (call i : Nat)
    (hi : i < ms.length) (h : queryFails sdk (call + i) ms[i] = true) :
    ∃ err, queryReserves sdk ms call = .error err := by
  induction ms generalizing call i with
  | nil => simp at hi
  | cons a ms ih =>
    unfold queryReserves
    cases hq : getTotalReserves sdk call a with
    | error e => exact ⟨e, rfl⟩
    | ok v =>
      cases i with
      | zero =>
        obtain ⟨e, he⟩ := getTotalReserves_fails sdk call a (by simpa using h)
        rw [he] at hq; cases hq
      | succ i =>
        have hi1 : i < ms.length := by simpa using hi
        obtain ⟨e, he⟩ := ih (call + 1) i hi1 (by
          have : call + 1 + i = call + (i + 1) := by omega
          rw [this]; simpa using h)
        rw [he]; exact ⟨e, rfl⟩

theorem queryReserves_of_succeeds (sdk : OntologySdk) (ms : List Address) (call : Nat)
    (h : ∀ i (hi : i < ms.length), queryFails sdk (call + i) ms[i] = false) :
    ∃ vs, queryReserves sdk ms call = .ok vs := by
  induction ms generalizing call with
  | nil => exact ⟨[], rfl⟩
  | cons a ms ih =>
    unfold queryReserves
    obtain ⟨v, hv⟩ := getTotalReserves_succeeds sdk call a (by simpa using h 0 (by simp))
    obtain ⟨vs, hvs⟩ := ih (call + 1) (fun i hi => by
      have := h (i + 1) (by simpa using hi)
      have e : call + 1 + i = call + (i + 1) := by omega
      rw [e]; simpa using this)
    rw [hv, hvs]; exact ⟨_, rfl⟩

/-- C3: when the listing fails, or the query of any listed market fails
(invocation error, conversion error, or fewer than 16 bytes), `TotalReserve`
returns an error and no mapping, whatever the earlier markets answered. -/
theorem TotalReserve_all_or_nothing (sdk : OntologySdk) (cfg : Config) (flashAddress : Address) :
    (∀ err, GetAllMarkets sdk 0 flashAddress = .error err →
      TotalReserve sdk cfg flashAddress =
        .error ("TotalReserve, this.GetAllMarkets error: " ++ err)) ∧
    (∀ ms i (hi : i < ms.length), GetAllMarkets sdk 0 flashAddress = .ok ms →
      queryFails sdk (i + 1) ms[i] = true →
      ∃ err, TotalReserve sdk cfg flashAddress =
        .error ("TotalReserve, this.getTotalReserves error: " ++ err)) := by
  constructor
  · intro err h
    simp [TotalReserve, h]
  · intro ms i hi hms hf
    obtain ⟨e, he⟩ := queryReserves_of_fails sdk ms 1 i hi (by rw [Nat.add_comm]; exact hf)
    refine ⟨e, ?_⟩
    simp [TotalReserve, hms, totalReserveLoop_eq, he]


theorem mapSet_keys (m : List (String × String)) (k v : String) :
    (mapSet m k v).map Prod.fst =
      if k ∈ m.map Prod.fst then m.map Prod.fst else m.map Prod.fst ++ [k] := by
  induction m with
  | nil => simp [mapSet]
  | cons p m ih =>
    obtain ⟨k1, v1⟩ := p
    unfold mapSet
    by_cases h : k1 = k
    · simp [h]
    · have h' : ¬ k = k1 := fun e => h e.symm
      simp only [h, if_false, List.map_cons, ih, List.mem_cons, h', false_or]
      split_ifs <;> simp

theorem mapSet_of_not_mem (m : List (String × String)) (k v : String)
    (h : k ∉ m.map Prod.fst) : mapSet m k v = m ++ [(k, v)] := by
  induction m with
  | nil => simp [mapSet]
  | cons p m ih =>
    obtain ⟨k1, v1⟩ := p
    simp only [List.map_cons, List.mem_cons, not_or] at h
    have h1 : ¬ k1 = k := fun e => h.1 e.symm
    simp [mapSet, h1, ih h.2]

theorem assignAll_keys_nodup (kvs m : List (String × String))
    (h : (m.map Prod.fst).Nodup) : ((assignAll m kvs).map Prod.fst).Nodup := by
  induction kvs generalizing m with
  | nil => simpa [assignAll] using h
  | cons p kvs ih =>
    simp only [assignAll, List.foldl_cons]
    apply ih
    rw [mapSet_keys]
    split_ifs with hk
    · exact h
    · exact List.Nodup.append h (List.nodup_singleton _) (by simpa using hk)

theorem assignAll_keys_toFinset (kvs m : List (String × String)) :
    ((assignAll m kvs).map Prod.fst).toFinset =
      (m.map Prod.fst).toFinset ∪ (kvs.map Prod.fst).toFinset := by
  induction kvs generalizing m with
  | nil => simp [assignAll]
  | cons p kvs ih =>
    simp only [assignAll, List.foldl_cons]
    have := ih (mapSet m p.1 p.2)
    simp only [assignAll] at this
    rw [this, mapSet_keys]
    ext x
    split_ifs with hk
    · simp only [Finset.mem_union, List.mem_toFinset, List.map_cons, List.mem_cons]
      constructor
      · rintro (h | h)
        · exact Or.inl h
        · exact Or.inr (Or.inr h)
      · rintro (h | h | h)
        · exact Or.inl h
        · subst h; exact Or.inl hk
        · exact Or.inr h
    · simp only [Finset.mem_union, List.mem_toFinset, List.map_cons, List.mem_cons,
        List.mem_append, List.mem_singleton]
      tauto

theorem assignAll_of_nodup (kvs m : List (String × String))
    (h : ((m ++ kvs).map Prod.fst).Nodup) : assignAll m kvs = m ++ kvs := by
  induction kvs generalizing m with
  | nil => simp [assignAll]
  | cons p kvs ih =>
    simp only [assignAll, List.foldl_cons]
    have hk : p.1 ∉ m.map Prod.fst := by
      simp only [List.map_append, List.map_cons] at h
      have := (List.nodup_append.1 h).2.2
      intro hm
      exact this hm (by simp)
    rw [mapSet_of_not_mem m p.1 p.2 hk]
    have := ih (m ++ [(p.1, p.2)]) (by simpa using h)
    simpa [assignAll] using this

theorem zipWith_keys (cfg : Config) (ms : List Address) (vs : List Int)
    (h : vs.length = ms.length) :
    (List.zipWith (fun a v => (marketName cfg a, bigIntString v)) ms vs).map Prod.fst =
      ms.map (marketName cfg) := by
  induction ms generalizing vs with
  | nil => simp
  | cons a ms ih =>
    cases vs with
    | nil => simp at h
    | cons v vs => simp [ih vs (by simpa using h)]

/-- C4, amended: when the listing and every market query succeed,
`TotalReserve` returns a mapping with one entry per distinct display name of
the listed markets; it has as many entries as markets when the display names
are pairwise distinct, and never more. -/
theorem TotalReserve_entries (sdk : OntologySdk) (cfg : Config) (flashAddress : Address)
    (ms : List Address) (hms : GetAllMarkets sdk 0 flashAddress = .ok ms)
    (hok : ∀ i (hi : i < ms.length), queryFails sdk (i + 1) ms[i] = false) :
    ∃ result, TotalReserve sdk cfg flashAddress = .ok result ∧
      result.length = (ms.map (marketName cfg)).dedup.length ∧
      result.length ≤ ms.length ∧
      ((ms.map (marketName cfg)).Nodup → result.length = ms.length) := by
  obtain ⟨vs, hvs⟩ := queryReserves_of_succeeds sdk ms 1 (fun i hi => by
    rw [Nat.add_comm]; exact hok i hi)
  have hlen := queryReserves_length sdk ms 1 vs hvs
  have hres : TotalReserve sdk cfg flashAddress = .ok (assignAll []
      (List.zipWith (fun a v => (marketName cfg a, bigIntString v)) ms vs)) := by
    simp only [TotalReserve, hms, totalReserveLoop_eq, hvs]
  refine ⟨_, hres, ?_⟩
  have hnd := assignAll_keys_nodup
    (List.zipWith (fun a v => (marketName cfg a, bigIntString v)) ms vs) [] (by simp)
  have hfs := assignAll_keys_toFinset
    (List.zipWith (fun a v => (marketName cfg a, bigIntString v)) ms vs) []
  rw [zipWith_keys cfg ms vs hlen] at hfs
  simp only [List.map_nil, List.toFinset_nil, Finset.empty_union] at hfs
  have hcard := List.toFinset_card_of_nodup hnd
  rw [hfs, List.length_map] at hcard
  have h1 : (assignAll [] (List.zipWith (fun a v => (marketName cfg a, bigIntString v)) ms vs)).length
      = (ms.map (marketName cfg)).dedup.length := by
    rw [← hcard, List.card_toFinset]
  refine ⟨h1, ?_, ?_⟩
  · rw [h1]
    have := (List.dedup_sublist (ms.map (marketName cfg))).length_le
    simpa using this
  · intro hn
    rw [h1, List.Nodup.dedup hn, List.length_map]

/-! ## 128-bit integers and decimal text -/
theorem toBigInt_leBytes_nonneg (m : Nat) (h : m < 2 ^ 127) :
    I128.toBigInt (leBytes 16 m) = (m : Int) := by
  simp only [leBytes, I128.toBigInt, List.reverse_cons, List.reverse_nil, List.nil_append,
    List.cons_append, beValue, List.map_cons, List.map_nil, List.foldl_cons, List.foldl_nil,
    Fin.ofNat, Nat.mod_mod]
  split_ifs with c
  · exfalso; omega
  · congr 1; omega

theorem toBigInt_leBytes_neg (m : Nat) (h1 : 2 ^ 127 ≤ m) (h2 : m < 2 ^ 128) :
    I128.toBigInt (leBytes 16 m) = (m : Int) - 2 ^ 128 := by
  simp only [leBytes, I128.toBigInt, List.reverse_cons, List.reverse_nil, List.nil_append,
    List.cons_append, beValue, List.map_cons, List.map_nil, List.foldl_cons, List.foldl_nil,
    Fin.ofNat, Nat.mod_mod]
  split_ifs with c
  · omega
  · exfalso; omega

theorem toBigInt_encodeI128 (v : Int) (h1 : -2 ^ 127 ≤ v) (h2 : v < 2 ^ 127) :
    I128.toBigInt (encodeI128 v) = v := by
  unfold encodeI128
  by_cases hv : 0 ≤ v
  · have e : (v % 2 ^ 128).toNat = v.toNat := by
      rw [Int.emod_eq_of_lt hv (by omega)]
    rw [e, toBigInt_leBytes_nonneg _ (by omega)]
    omega
  · have e : (v % 2 ^ 128).toNat = (v + 2 ^ 128).toNat := by
      congr 1
      rw [← Int.add_emod_self, Int.emod_eq_of_lt (by omega) (by omega)]
    rw [e, toBigInt_leBytes_neg _ (by omega) (by omega)]
    omega

theorem nextI128_encodeI128 (v : Int) :
    nextI128 (encodeI128 v) = (encodeI128 v, false, []) := by
  have h : (encodeI128 v).length = 16 := leBytes_length _ _
  simp [nextI128, nextBytes, I128_SIZE, h, List.take_of_length_le]

theorem getTotalReserves_encoded (sdk : OntologySdk) (call : Nat) (address : Address) (v : Int)
    (h1 : -2 ^ 127 ≤ v) (h2 : v < 2 ^ 127)
    (hr : sdk.preExec call address "totalReserves" = .bytes (encodeI128 v)) :
    getTotalReserves sdk call address = .ok v := by
  simp [getTotalReserves, hr, nextI128_encodeI128, toBigInt_encodeI128 v h1 h2]

theorem digitChar_decimal (d : Nat) (h : d < 10) :
    (Nat.digitChar d).toNat - 48 = d ∧ (Nat.digitChar d).isDigit = true := by
  interval_cases d <;> exact ⟨rfl, rfl⟩

theorem foldl_digits_shift (cs : List Char) (k : Nat) :
    cs.foldl (fun n c => n * 10 + (c.toNat - 48)) k = k * 10 ^ cs.length + digitsValue cs := by
  induction cs generalizing k with
  | nil => simp [digitsValue]
  | cons c cs ih =>
    simp only [List.foldl_cons, digitsValue, List.length_cons]
    rw [ih, ih (0 * 10 + (c.toNat - 48))]
    ring

theorem toDigitsCore_decimal (fuel n : Nat) (ds : List Char) (h : n < fuel)
    (hds : ds.all Char.isDigit = true) :
    (Nat.toDigitsCore 10 fuel n ds).all Char.isDigit = true ∧
      digitsValue (Nat.toDigitsCore 10 fuel n ds) = n * 10 ^ ds.length + digitsValue ds ∧
      Nat.toDigitsCore 10 fuel n ds ≠ [] := by
  induction fuel generalizing n ds with
  | zero => omega
  | succ fuel ih =>
    obtain ⟨hd1, hd2⟩ := digitChar_decimal (n % 10) (Nat.mod_lt _ (by decide))
    have hdv : digitsValue (Nat.digitChar (n % 10) :: ds) =
        (n % 10) * 10 ^ ds.length + digitsValue ds := by
      unfold digitsValue
      rw [List.foldl_cons, foldl_digits_shift, hd1]
      simp [digitsValue]
    have hall : (Nat.digitChar (n % 10) :: ds).all Char.isDigit = true := by
      simp only [List.all_cons, hd2, hds, Bool.and_self]
    unfold Nat.toDigitsCore
    by_cases hz : n / 10 = 0
    · simp only [hz, if_true]
      refine ⟨hall, ?_, by simp⟩
      rw [hdv]
      have : n % 10 = n := by omega
      rw [this]
    · simp only [hz, if_false]
      obtain ⟨a1, a2, a3⟩ := ih (n / 10) (Nat.digitChar (n % 10) :: ds) (by omega) hall
      refine ⟨a1, ?_, a3⟩
      rw [a2, hdv, List.length_cons, pow_succ]
      have := Nat.div_add_mod n 10
      calc n / 10 * (10 ^ ds.length * 10) + (n % 10 * 10 ^ ds.length + digitsValue ds)
          = (10 * (n / 10) + n % 10) * 10 ^ ds.length + digitsValue ds := by ring
        _ = n * 10 ^ ds.length + digitsValue ds := by rw [this]

theorem parseDigits_toDigits (n : Nat) : parseDigits (Nat.toDigits 10 n) = some n := by
  obtain ⟨h1, h2, h3⟩ := toDigitsCore_decimal (n + 1) n [] (by omega) (by simp)
  unfold parseDigits Nat.toDigits
  rw [if_pos ⟨h3, h1⟩]
  simp only [digitsValue, List.length_nil, pow_zero, mul_one, List.foldl_nil, add_zero] at h2
  rw [h2]

theorem toDigits_head (n : Nat) : ∀ ds, Nat.toDigits 10 n ≠ '-' :: ds := by
  intro ds hds
  obtain ⟨h1, _, _⟩ := toDigitsCore_decimal (n + 1) n [] (by omega) (by simp)
  unfold Nat.toDigits at hds
  rw [hds] at h1
  simp at h1

theorem parseBigInt_bigIntString (v : Int) : parseBigInt (bigIntString v) = some v := by
  cases v with
  | ofNat n =>
    have hd : (bigIntString (Int.ofNat n)).data = Nat.toDigits 10 n := rfl
    unfold parseBigInt
    rw [hd]
    split
    · next ds h => exact absurd h (toDigits_head n ds)
    · simp [parseDigits_toDigits]
  | negSucc n =>
    have hd : (bigIntString (Int.negSucc n)).data = '-' :: Nat.toDigits 10 (n + 1) := rfl
    unfold parseBigInt
    rw [hd]
    simp only [parseDigits_toDigits, Option.map_some']
    rfl

theorem mapIndex_mapSet (m : List (String × String)) (k v k1 : String) :
    mapIndex (mapSet m k v) k1 = if k = k1 then v else mapIndex m k1 := by
  induction m with
  | nil => simp [mapSet, mapIndex]
  | cons p m ih =>
    obtain ⟨a, b⟩ := p
    unfold mapSet
    by_cases h : a = k
    · subst h
      by_cases h1 : a = k1 <;> simp [mapIndex, h1]
    · simp only [h, if_false, mapIndex, ih]
      by_cases h1 : a = k1
      · have : ¬ k = k1 := fun e => h (h1.trans e.symm)
        simp [h1, this]
      · simp [h1]

theorem mapIndex_assignAll_of_not_mem (kvs m : List (String × String)) (k : String)
    (h : k ∉ kvs.map Prod.fst) : mapIndex (assignAll m kvs) k = mapIndex m k := by
  induction kvs generalizing m with
  | nil => rfl
  | cons p kvs ih =>
    simp only [List.map_cons, List.mem_cons, not_or] at h
    have := ih (mapSet m p.1 p.2) h.2
    simp only [assignAll, List.foldl_cons] at this ⊢
    rw [this, mapIndex_mapSet, if_neg (fun e => h.1 e.symm)]

theorem mapIndex_assignAll_last (pre post m : List (String × String)) (k v : String)
    (h : k ∉ post.map Prod.fst) :
    mapIndex (assignAll m (pre ++ (k, v) :: post)) k = v := by
  have e : assignAll m (pre ++ (k, v) :: post) =
      assignAll (mapSet (assignAll m pre) k v) post := by
    simp [assignAll, List.foldl_append]
  rw [e, mapIndex_assignAll_of_not_mem post _ k h, mapIndex_mapSet, if_pos rfl]

theorem queryReserves_getElem (sdk : OntologySdk) (ms : List Address) (call : Nat)
    (vs : List Int) (h : queryReserves sdk ms call = .ok vs) (i : Nat) (hi : i < ms.length)
    (hv : i < vs.length) : getTotalReserves sdk (call + i) ms[i] = .ok vs[i] := by
  induction ms generalizing call vs i with
  | nil => simp at hi
  | cons a ms ih =>
    unfold queryReserves at h
    cases hq : getTotalReserves sdk call a with
    | error e => simp [hq] at h
    | ok v =>
      cases hrest : queryReserves sdk ms (call + 1) with
      | error e => simp [hq, hrest] at h
      | ok ws =>
        simp [hq, hrest] at h
        subst h
        cases i with
        | zero => simpa using hq
        | succ i =>
          have := ih (call + 1) ws hrest i (by simpa using hi) (by simpa using hv)
          have e : call + 1 + i = call + (i + 1) := by omega
          rw [e] at this
          simpa using this

theorem zipWith_split (cfg : Config) (ms : List Address) (vs : List Int)
    (hlen : vs.length = ms.length) (i : Nat) (hi : i < ms.length) (hv : i < vs.length) :
    List.zipWith (fun a v => (marketName cfg a, bigIntString v)) ms vs =
      List.zipWith (fun a v => (marketName cfg a, bigIntString v)) (ms.take i) (vs.take i) ++
        (marketName cfg ms[i], bigIntString vs[i]) ::
          List.zipWith (fun a v => (marketName cfg a, bigIntString v))
            (ms.drop (i + 1)) (vs.drop (i + 1)) := by
  induction ms generalizing vs i with
  | nil => simp at hi
  | cons a ms ih =>
    cases vs with
    | nil => simp at hv
    | cons v vs =>
      cases i with
      | zero => simp
      | succ i =>
        have := ih vs (by simpa using hlen) i (by simpa using hi) (by simpa using hv)
        simp only [List.take_succ_cons, List.zipWith_cons_cons, List.cons_append,
          List.getElem_cons_succ, List.drop_succ_cons]
        rw [← this]

/-- The balance found in the returned mapping under the name of a market that
no later market shares. -/
theorem TotalReserve_balance_final (sdk : OntologySdk) (cfg : Config) (flashAddress : Address)
    (ms : List Address) (i : Nat) (hi : i < ms.length) (v : Int)
    (h1 : -2 ^ 127 ≤ v) (h2 : v < 2 ^ 127)
    (hms : GetAllMarkets sdk 0 flashAddress = .ok ms)
    (hok : ∀ j (hj : j < ms.length), queryFails sdk (j + 1) ms[j] = false)
    (hr : sdk.preExec (i + 1) ms[i] "totalReserves" = .bytes (encodeI128 v))
    (hlast : ∀ j (hj : j < ms.length), i < j → marketName cfg ms[j] ≠ marketName cfg ms[i]) :
    getTotalReserves sdk (i + 1) ms[i] = .ok v ∧
    ∃ result, TotalReserve sdk cfg flashAddress = .ok result ∧
      mapIndex result (marketName cfg ms[i]) = bigIntString v ∧
      parseBigInt (mapIndex result (marketName cfg ms[i])) = some v := by
  have hget := getTotalReserves_encoded sdk (i + 1) ms[i] v h1 h2 hr
  refine ⟨hget, ?_⟩
  obtain ⟨vs, hvs⟩ := queryReserves_of_succeeds sdk ms 1 (fun j hj => by
    rw [Nat.add_comm]; exact hok j hj)
  have hlen := queryReserves_length sdk ms 1 vs hvs
  have hv : i < vs.length := by omega
  have hvi := queryReserves_getElem sdk ms 1 vs hvs i hi hv
  rw [Nat.add_comm, hget] at hvi
  have hvi : vs[i] = v := (Except.ok.inj hvi).symm
  have hres : TotalReserve sdk cfg flashAddress = .ok (assignAll []
      (List.zipWith (fun a v => (marketName cfg a, bigIntString v)) ms vs)) := by
    simp only [TotalReserve, hms, totalReserveLoop_eq, hvs]
  have hidx : mapIndex (assignAll []
      (List.zipWith (fun a v => (marketName cfg a, bigIntString v)) ms vs))
      (marketName cfg ms[i]) = bigIntString v := by
    rw [zipWith_split cfg ms vs hlen i hi hv, hvi]
    apply mapIndex_assignAll_last
    rw [zipWith_keys cfg _ _ (by simp [hlen])]
    intro hmem
    obtain ⟨a, ha, hname⟩ := List.mem_map.1 hmem
    obtain ⟨j, hj, hja⟩ := List.mem_iff_getElem.1 ha
    rw [List.getElem_drop] at hja
    have hj' : i + 1 + j < ms.length := by
      simp only [List.length_drop] at hj; omega
    exact hlast (i + 1 + j) hj' (by omega) (by rw [hja]; exact hname)
  exact ⟨_, hres, hidx, by rw [hidx]; exact parseBigInt_bigIntString v⟩

/-! ## The polling loop -/

theorem cycleTimes_append (a b : List Event) :
    cycleTimes (a ++ b) = cycleTimes a ++ cycleTimes b := by
  induction a with
  | nil => rfl
  | cons e a ih => cases e <;> simp [cycleTimes, ih]

theorem written_append (a b : List Event) : written (a ++ b) = written a ++ written b := by
  induction a with
  | nil => simp [written]
  | cons e a ih => cases e <;> simp [written, ih, String.append_assoc]

theorem cycleTimes_rangeWrites (l : List (String × String)) : cycleTimes (rangeWrites l) = [] := by
  induction l with
  | nil => rfl
  | cons p l ih => obtain ⟨k, v⟩ := p; simp [rangeWrites, cycleTimes, ih]

theorem join_cons (a : String) (l : List String) : String.join (a :: l) = a ++ String.join l := by
  rw [String.join_eq, String.join_eq]
  apply String.ext
  simp

theorem written_rangeWrites (l : List (String × String)) :
    written (rangeWrites l) = String.join (l.map entryLine) := by
  induction l with
  | nil => rfl
  | cons p l ih =>
    obtain ⟨k, v⟩ := p
    have e : rangeWrites ((k, v) :: l) =
        Event.writeString k :: Event.writeString "\t" :: Event.writeString v ::
          Event.writeString "\n" :: rangeWrites l := rfl
    rw [e]
    simp only [written, ih, List.map_cons, join_cons, entryLine, String.append_assoc]

/-- The events of one iteration before the exit test. -/
theorem loopBody_eq (cfg : Config) (flashAddress : Address) (start : Int) (c : Cycle) :
    loopBody cfg flashAddress start c =
      (([Event.create c.now] ++
        (match TotalReserve c.sdk cfg flashAddress with
          | .error err =>
            [Event.callTotalReserve true, Event.logError ("TotalReserve, err: " ++ err)]
          | .ok _ => [Event.callTotalReserve false]) ++
        rangeWrites (c.order (match TotalReserve c.sdk cfg flashAddress with
          | .error _ => []
          | .ok result => result)) ++
        [Event.flush, Event.close]) ++
        (if start + twoMinutes < c.now then [Event.logDone] else []),
       decide (start + twoMinutes < c.now)) := by
  unfold loopBody
  cases TotalReserve c.sdk cfg flashAddress <;>
    by_cases h : start + twoMinutes < c.now <;> simp [h]

theorem loopBody_cycleTimes (cfg : Config) (flashAddress : Address) (start : Int) (c : Cycle) :
    cycleTimes (loopBody cfg flashAddress start c).1 = [c.now] := by
  rw [loopBody_eq]
  simp only [cycleTimes_append, cycleTimes_rangeWrites]
  cases TotalReserve c.sdk cfg flashAddress <;>
    by_cases h : start + twoMinutes < c.now <;> simp [h, cycleTimes]

theorem pollingLoop_done (cfg : Config) (flashAddress : Address) (start : Int)
    (env : Nat → Cycle) (fuel k : Nat) (h : start + twoMinutes < (env k).now) :
    pollingLoop cfg flashAddress start env (fuel + 1) k =
      ((loopBody cfg flashAddress start (env k)).1, true) := by
  have e : (loopBody cfg flashAddress start (env k)).2 = true := by
    rw [loopBody_eq]; simp [h]
  unfold pollingLoop
  generalize loopBody cfg flashAddress start (env k) = b at e ⊢
  obtain ⟨evs, d⟩ := b
  simp only at e
  subst e
  rfl

theorem pollingLoop_continue (cfg : Config) (flashAddress : Address) (start : Int)
    (env : Nat → Cycle) (fuel k : Nat) (h : ¬ start + twoMinutes < (env k).now) :
    pollingLoop cfg flashAddress start env (fuel + 1) k =
      ((loopBody cfg flashAddress start (env k)).1 ++
          (pollingLoop cfg flashAddress start env fuel (k + 1)).1,
        (pollingLoop cfg flashAddress start env fuel (k + 1)).2) := by
  have e : (loopBody cfg flashAddress start (env k)).2 = false := by
    rw [loopBody_eq]; simp [h]
  conv_lhs => unfold pollingLoop
  generalize loopBody cfg flashAddress start (env k) = b at e ⊢
  obtain ⟨evs, d⟩ := b
  simp only at e
  subst e
  rfl

/-- The loop runs the cycles up to and including the first one whose instant is after the end. -/
theorem pollingLoop_cycles (cfg : Config) (flashAddress : Address) (start : Int)
    (env : Nat → Cycle) (n : Nat) (k : Nat)
    (hbefore : ∀ j, j < n → ¬ start + twoMinutes < (env (k + j)).now)
    (hafter : start + twoMinutes < (env (k + n)).now) (fuel : Nat) (hfuel : n < fuel) :
    (pollingLoop cfg flashAddress start env fuel k).2 = true ∧
      cycleTimes (pollingLoop cfg flashAddress start env fuel k).1 =
        (List.range (n + 1)).map (fun j => (env (k + j)).now) := by
  induction n generalizing k fuel with
  | zero =>
    obtain ⟨f, rfl⟩ : ∃ f, fuel = f + 1 := ⟨fuel - 1, by omega⟩
    rw [pollingLoop_done _ _ _ _ _ _ (by simpa using hafter)]
    simp [loopBody_cycleTimes, List.range_succ]
  | succ n ih =>
    obtain ⟨f, rfl⟩ : ∃ f, fuel = f + 1 := ⟨fuel - 1, by omega⟩
    rw [pollingLoop_continue _ _ _ _ _ _ (by simpa using hbefore 0 (by omega))]
    have := ih (k + 1) (fun j hj => by
      have := hbefore (j + 1) (by omega)
      rwa [show k + (j + 1) = k + 1 + j by omega] at this)
      (by rwa [show k + (n + 1) = k + 1 + n by omega] at hafter) f (by omega)
    refine ⟨this.1, ?_⟩
    simp only [cycleTimes_append, loopBody_cycleTimes, this.2]
    rw [List.range_succ_eq_map (n + 1)]
    simp only [List.map_cons, List.map_map, Nat.add_zero, List.singleton_append]
    congr 1
    apply List.map_congr_left
    intro j _
    simp only [Function.comp]
    rw [show k + 1 + j = k + (j + 1) by omega]

/-- C6, amended: with start instant T0 and a clock that reads T0 + 30 s * k in
cycle k, the loop returns and has executed exactly the cycles at T0, T0+30s,
..., up to and including the first one strictly after T0 + 2 min, which is the
one at T0 + 2 min 30 s. -/
theorem pollingLoop_thirty_second_ticks (cfg : Config) (flashAddress : Address) (T0 : Int)
    (env : Nat → Cycle) (hclock : ∀ k, (env k).now = T0 + 30000000000 * k)
    (fuel : Nat) (hfuel : 6 ≤ fuel) :
    (pollingLoop cfg flashAddress T0 env fuel 0).2 = true ∧
      cycleTimes (pollingLoop cfg flashAddress T0 env fuel 0).1 =
        [T0, T0 + 30000000000, T0 + 60000000000, T0 + 90000000000, T0 + 120000000000,
          T0 + 150000000000] := by
  have h := pollingLoop_cycles cfg flashAddress T0 env 5 0
    (fun j hj => by rw [hclock]; unfold twoMinutes; push_cast; omega)
    (by rw [hclock]; unfold twoMinutes; push_cast; omega) fuel (by omega)
  refine ⟨h.1, ?_⟩
  rw [h.2]
  simp [List.range_succ, hclock]

theorem logDone_not_mem_rangeWrites (l : List (String × String)) :
    Event.logDone ∉ rangeWrites l := by
  induction l with
  | nil => simp [rangeWrites]
  | cons p l ih =>
    obtain ⟨k, v⟩ := p
    simp [rangeWrites, ih]

/-- C5: a reserve that arrives as the 128-bit signed encoding of `v` is decoded
to `v`, the string stored for the market at line 145 is the decimal text of
`v`, parsing that string gives `v` back, and it is the string found in the
returned mapping unless a later market of the listing carries the same name. -/
theorem TotalReserve_balance_exact (sdk : OntologySdk) (cfg : Config) (call : Nat)
    (address : Address) (v : Int) (h1 : -2 ^ 127 ≤ v) (h2 : v < 2 ^ 127)
    (hr : sdk.preExec call address "totalReserves" = .bytes (encodeI128 v)) :
    getTotalReserves sdk call address = .ok v ∧
    (∀ rest result, totalReserveLoop sdk cfg (address :: rest) call result =
      totalReserveLoop sdk cfg rest (call + 1)
        (mapSet result (marketName cfg address) (bigIntString v))) ∧
    (∀ result, mapIndex (mapSet result (marketName cfg address) (bigIntString v))
      (marketName cfg address) = bigIntString v) ∧
    parseBigInt (bigIntString v) = some v ∧
    (∀ flashAddress ms i (hi : i < ms.length), call = i + 1 → address = ms[i] →
      GetAllMarkets sdk 0 flashAddress = .ok ms →
      (∀ j (hj : j < ms.length), queryFails sdk (j + 1) ms[j] = false) →
      (∀ j (hj : j < ms.length), i < j → marketName cfg ms[j] ≠ marketName cfg ms[i]) →
      ∃ result, TotalReserve sdk cfg flashAddress = .ok result ∧
        mapIndex result (marketName cfg address) = bigIntString v ∧
        parseBigInt (mapIndex result (marketName cfg address)) = some v) := by
  have hget := getTotalReserves_encoded sdk call address v h1 h2 hr
  refine ⟨hget, ?_, ?_, parseBigInt_bigIntString v, ?_⟩
  · intro rest result
    conv_lhs => unfold totalReserveLoop
    simp only [hget, marketName]
  · intro result
    rw [mapIndex_mapSet, if_pos rfl]
  · intro flashAddress ms i hi hcall haddr hms hok hlast
    subst hcall haddr
    exact (TotalReserve_balance_final sdk cfg flashAddress ms i hi v h1 h2 hms hok hr hlast).2

/-- C7: an iteration returns from the loop exactly when its captured instant
is strictly after the start instant plus two minutes, whatever `TotalReserve`
returned; the test comes after the flush and the close of the cycle's file;
and an iteration whose instant is not after that end is followed by the next
one. -/
theorem loop_exit_test (cfg : Config) (flashAddress : Address) (start : Int)
    (env : Nat → Cycle) (k fuel : Nat) :
    ((loopBody cfg flashAddress start (env k)).2 = true ↔
      start + twoMinutes < (env k).now) ∧
    (∃ pre, Event.logDone ∉ pre ∧
      (loopBody cfg flashAddress start (env k)).1 =
        pre ++ [Event.flush, Event.close] ++
          (if start + twoMinutes < (env k).now then [Event.logDone] else [])) ∧
    (start + twoMinutes < (env k).now →
      pollingLoop cfg flashAddress start env (fuel + 1) k =
        ((loopBody cfg flashAddress start (env k)).1, true)) ∧
    (¬ start + twoMinutes < (env k).now →
      pollingLoop cfg flashAddress start env (fuel + 1) k =
        ((loopBody cfg flashAddress start (env k)).1 ++
            (pollingLoop cfg flashAddress start env fuel (k + 1)).1,
          (pollingLoop cfg flashAddress start env fuel (k + 1)).2) ∧
      ∃ rest, cycleTimes (pollingLoop cfg flashAddress start env (fuel + 2) k).1 =
        (env k).now :: (env (k + 1)).now :: rest) := by
  refine ⟨?_, ?_, pollingLoop_done cfg flashAddress start env fuel k, ?_⟩
  · rw [loopBody_eq]; simp
  · rw [loopBody_eq]
    refine ⟨_, ?_, rfl⟩
    cases TotalReserve (env k).sdk cfg flashAddress <;>
      simp [logDone_not_mem_rangeWrites]
  · intro h
    refine ⟨pollingLoop_continue cfg flashAddress start env fuel k h, ?_⟩
    rw [pollingLoop_continue cfg flashAddress start env (fuel + 1) k h]
    simp only [cycleTimes_append, loopBody_cycleTimes, List.singleton_append]
    by_cases h1 : start + twoMinutes < (env (k + 1)).now
    · rw [pollingLoop_done cfg flashAddress start env fuel (k + 1) h1]
      exact ⟨[], by simp [loopBody_cycleTimes]⟩
    · rw [pollingLoop_continue cfg flashAddress start env fuel (k + 1) h1]
      simp only [cycleTimes_append, loopBody_cycleTimes, List.singleton_append]
      exact ⟨_, rfl⟩

/-- The events of a cycle in which `TotalReserve` fails. -/
theorem loopBody_failed (cfg : Config) (flashAddress : Address) (start : Int)
    (c : Cycle) (err : String) (hord : RangeOrder c)
    (h : TotalReserve c.sdk cfg flashAddress = .error err) :
    (loopBody cfg flashAddress start c).1 =
      [Event.create c.now, Event.callTotalReserve true,
        Event.logError ("TotalReserve, err: " ++ err), Event.flush, Event.close] ++
        (if start + twoMinutes < c.now then [Event.logDone] else []) ∧
    written (loopBody cfg flashAddress start c).1 = "" := by
  have hnil : c.order [] = [] := List.Perm.eq_nil (hord [])
  have e : (loopBody cfg flashAddress start c).1 =
      [Event.create c.now, Event.callTotalReserve true,
        Event.logError ("TotalReserve, err: " ++ err), Event.flush, Event.close] ++
        (if start + twoMinutes < c.now then [Event.logDone] else []) := by
    rw [loopBody_eq]
    simp [h, hnil, rangeWrites]
  refine ⟨e, ?_⟩
  rw [e]
  by_cases hd : start + twoMinutes < c.now <;> simp [hd, written]

theorem queryReserves_encoded (sdk : OntologySdk) (ms : List Address) (rs : List Int)
    (call : Nat) (hlen : ms.length = rs.length)
    (hrange : ∀ r ∈ rs, -2 ^ 127 ≤ r ∧ r < 2 ^ 127)
    (hres : ∀ i (h1 : i < ms.length) (h2 : i < rs.length),
      sdk.preExec (call + i) ms[i] "totalReserves" = .bytes (encodeI128 rs[i])) :
    queryReserves sdk ms call = .ok rs := by
  induction ms generalizing rs call with
  | nil =>
    cases rs with
    | nil => rfl
    | cons r rs => simp at hlen
  | cons a ms ih =>
    cases rs with
    | nil => simp at hlen
    | cons r rs =>
      have hr := hrange r (by simp)
      have h0 := hres 0 (by simp) (by simp)
      simp only [Nat.add_zero, List.getElem_cons_zero] at h0
      have hget := getTotalReserves_encoded sdk call a r hr.1 hr.2 h0
      have hrest := ih rs (call + 1) (by simpa using hlen)
        (fun x hx => hrange x (by simp [hx]))
        (fun i h1 h2 => by
          have := hres (i + 1) (by simpa using h1) (by simpa using h2)
          rw [show call + 1 + i = call + (i + 1) by omega]
          simpa using this)
      unfold queryReserves
      rw [hget, hrest]

theorem zipWith_entryLine (cfg : Config) (ms : List Address) (rs : List Int) :
    (List.zipWith (fun a v => (marketName cfg a, bigIntString v)) ms rs).map entryLine =
      List.zipWith (fun a r => marketName cfg a ++ "\t" ++ bigIntString r ++ "\n") ms rs := by
  induction ms generalizing rs with
  | nil => simp
  | cons a ms ih =>
    cases rs with
    | nil => simp
    | cons r rs => simp [ih, entryLine]

theorem loopBody_written (cfg : Config) (flashAddress : Address) (start : Int) (c : Cycle)
    (result : List (String × String)) (h : TotalReserve c.sdk cfg flashAddress = .ok result) :
    written (loopBody cfg flashAddress start c).1 =
      String.join ((c.order result).map entryLine) := by
  rw [loopBody_eq]
  simp only [h, written_append, written_rangeWrites]
  by_cases hd : start + twoMinutes < c.now <;> simp [hd, written]

/-- C8: a successful cycle over markets with pairwise distinct display names
writes one line `name TAB balance NEWLINE` per market, in some order, and
nothing else. -/
theorem successful_cycle_content (cfg : Config) (flashAddress : Address) (start : Int)
    (c : Cycle) (ms : List Address) (rs : List Int)
    (hlen : ms.length = rs.length) (hcount : ms.length < 2 ^ 64)
    (hrange : ∀ r ∈ rs, -2 ^ 127 ≤ r ∧ r < 2 ^ 127)
    (hnames : (ms.map (marketName cfg)).Nodup)
    (hlist : c.sdk.preExec 0 flashAddress "allMarkets" = .bytes (encodeMarkets ms))
    (hres : ∀ i (h1 : i < ms.length) (h2 : i < rs.length),
      c.sdk.preExec (i + 1) ms[i] "totalReserves" = .bytes (encodeI128 rs[i]))
    (hord : RangeOrder c) :
    ∃ lines,
      lines.Perm
        (List.zipWith (fun a r => marketName cfg a ++ "\t" ++ bigIntString r ++ "\n") ms rs) ∧
      written (loopBody cfg flashAddress start c).1 = String.join lines := by
  have hms := GetAllMarkets_encoded c.sdk 0 flashAddress ms hcount hlist
  have hq := queryReserves_encoded c.sdk ms rs 1 hlen hrange (fun i h1 h2 => by
    rw [Nat.add_comm]; exact hres i h1 h2)
  have hkeys := zipWith_keys cfg ms rs hlen.symm
  have hres : TotalReserve c.sdk cfg flashAddress =
      .ok (List.zipWith (fun a v => (marketName cfg a, bigIntString v)) ms rs) := by
    simp only [TotalReserve, hms, totalReserveLoop_eq, hq]
    rw [assignAll_of_nodup _ _ (by simpa [hkeys] using hnames)]
    simp
  refine ⟨(c.order _).map entryLine, ?_, loopBody_written cfg flashAddress start c _ hres⟩
  rw [← zipWith_entryLine]
  exact (hord _).map entryLine

theorem GetAllMarkets_congr (sdk1 sdk2 : OntologySdk) (call : Nat) (flashAddress : Address)
    (h : sdk1.preExec call flashAddress "allMarkets" =
      sdk2.preExec call flashAddress "allMarkets") :
    GetAllMarkets sdk1 call flashAddress = GetAllMarkets sdk2 call flashAddress := by
  unfold GetAllMarkets
  rw [h]

theorem getTotalReserves_congr (sdk1 sdk2 : OntologySdk) (call : Nat) (address : Address)
    (h : sdk1.preExec call address "totalReserves" =
      sdk2.preExec call address "totalReserves") :
    getTotalReserves sdk1 call address = getTotalReserves sdk2 call address := by
  unfold getTotalReserves
  rw [h]

theorem queryReserves_congr (sdk1 sdk2 : OntologySdk) (ms : List Address) (call : Nat)
    (h : ∀ i (hi : i < ms.length), sdk1.preExec (call + i) ms[i] "totalReserves" =
      sdk2.preExec (call + i) ms[i] "totalReserves") :
    queryReserves sdk1 ms call = queryReserves sdk2 ms call := by
  induction ms generalizing call with
  | nil => rfl
  | cons a ms ih =>
    unfold queryReserves
    have h0 := h 0 (by simp)
    simp only [Nat.add_zero, List.getElem_cons_zero] at h0
    rw [getTotalReserves_congr sdk1 sdk2 call a h0, ih (call + 1) (fun i hi => by
      have := h (i + 1) (by simpa using hi)
      rw [show call + 1 + i = call + (i + 1) by omega]
      simpa using this)]

/-- The bytes written by a cycle: the lines of the entries of the ranged map,
in the order of enumeration. -/
theorem loopBody_written_ranged (cfg : Config) (flashAddress : Address) (start : Int)
    (c : Cycle) (hord : RangeOrder c) :
    written (loopBody cfg flashAddress start c).1 =
      String.join ((c.order (rangedMap (TotalReserve c.sdk cfg flashAddress))).map entryLine) := by
  cases hr : TotalReserve c.sdk cfg flashAddress with
  | ok result => exact loopBody_written cfg flashAddress start c result hr
  | error e =>
    have hnil : c.order [] = [] := List.Perm.eq_nil (hord [])
    rw [(loopBody_failed cfg flashAddress start c e hord hr).2]
    simp only [rangedMap, hnil]
    rfl

/-- Two cycles that receive the same listing and the same reserve for every
listed market obtain the same result from `TotalReserve`. -/
theorem TotalReserve_congr (cfg : Config) (flashAddress : Address) (sdk1 sdk2 : OntologySdk)
    (hlist : sdk1.preExec 0 flashAddress "allMarkets" =
      sdk2.preExec 0 flashAddress "allMarkets")
    (hres : ∀ ms, GetAllMarkets sdk1 0 flashAddress = .ok ms →
      ∀ i (hi : i < ms.length), sdk1.preExec (i + 1) ms[i] "totalReserves" =
        sdk2.preExec (i + 1) ms[i] "totalReserves") :
    TotalReserve sdk1 cfg flashAddress = TotalReserve sdk2 cfg flashAddress := by
  have hg := GetAllMarkets_congr sdk1 sdk2 0 flashAddress hlist
  unfold TotalReserve
  rw [← hg]
  cases hm : GetAllMarkets sdk1 0 flashAddress with
  | error e => rfl
  | ok ms =>
    simp only [totalReserveLoop_eq]
    rw [queryReserves_congr sdk1 sdk2 ms 1 (fun i hi => by
      rw [Nat.add_comm]; exact hres ms hm i hi)]

/-- C9, amended: two cycles that receive the same listing and the same reserve
for every listed market under the same asset map obtain the same mapping, and
each of their files is the concatenation of the lines of the entries of that
one mapping, every entry once, in the order in which the runtime enumerated
it: the same lines, possibly in a different order.  The bytes are identical
when the mapping has at most one entry. -/
theorem identical_responses_same_lines (cfg : Config) (flashAddress : Address)
    (start : Int) (c1 c2 : Cycle)
    (hlist : c1.sdk.preExec 0 flashAddress "allMarkets" =
      c2.sdk.preExec 0 flashAddress "allMarkets")
    (hres : ∀ ms, GetAllMarkets c1.sdk 0 flashAddress = .ok ms →
      ∀ i (hi : i < ms.length), c1.sdk.preExec (i + 1) ms[i] "totalReserves" =
        c2.sdk.preExec (i + 1) ms[i] "totalReserves")
    (hord1 : RangeOrder c1) (hord2 : RangeOrder c2) :
    TotalReserve c1.sdk cfg flashAddress = TotalReserve c2.sdk cfg flashAddress ∧
    written (loopBody cfg flashAddress start c1).1 =
      String.join
        ((c1.order (rangedMap (TotalReserve c1.sdk cfg flashAddress))).map entryLine) ∧
    written (loopBody cfg flashAddress start c2).1 =
      String.join
        ((c2.order (rangedMap (TotalReserve c1.sdk cfg flashAddress))).map entryLine) ∧
    ((c1.order (rangedMap (TotalReserve c1.sdk cfg flashAddress))).map entryLine).Perm
      ((rangedMap (TotalReserve c1.sdk cfg flashAddress)).map entryLine) ∧
    ((c2.order (rangedMap (TotalReserve c1.sdk cfg flashAddress))).map entryLine).Perm
      ((rangedMap (TotalReserve c1.sdk cfg flashAddress)).map entryLine) ∧
    ((rangedMap (TotalReserve c1.sdk cfg flashAddress)).length ≤ 1 →
      written (loopBody cfg flashAddress start c1).1 =
        written (loopBody cfg flashAddress start c2).1) := by
  have hsame := TotalReserve_congr cfg flashAddress c1.sdk c2.sdk hlist hres
  have w1 := loopBody_written_ranged cfg flashAddress start c1 hord1
  have w2 := loopBody_written_ranged cfg flashAddress start c2 hord2
  rw [← hsame] at w2
  refine ⟨hsame, w1, w2, (hord1 _).map entryLine, (hord2 _).map entryLine, ?_⟩
  intro hl
  rw [w1, w2]
  have p1 := hord1 (rangedMap (TotalReserve c1.sdk cfg flashAddress))
  have p2 := hord2 (rangedMap (TotalReserve c1.sdk cfg flashAddress))
  generalize rangedMap (TotalReserve c1.sdk cfg flashAddress) = m at hl p1 p2
  have e1 : c1.order m = m := by
    match m, hl, p1 with
    | [], _, p => exact List.Perm.eq_nil p
    | [a], _, p => exact List.perm_singleton.1 p
  have e2 : c2.order m = m := by
    match m, hl, p2 with
    | [], _, p => exact List.Perm.eq_nil p
    | [a], _, p => exact List.perm_singleton.1 p
  rw [e1, e2]

/-! ## The claims -/

/-- C1: when the listing buffer is the variable-length encoding of N followed
by the N addresses, `GetAllMarkets` succeeds and returns exactly those
addresses, in order. -/
theorem GetAllMarkets_wellFormed (sdk : OntologySdk) (call : Nat) (flashAddress : Address)
    (ms : List Address) (hlen : ms.length < 2 ^ 64)
    (hr : sdk.preExec call flashAddress "allMarkets" = .bytes (encodeMarkets ms)) :
    GetAllMarkets sdk call flashAddress = .ok ms :=
  GetAllMarkets_encoded sdk call flashAddress ms hlen hr

/-- The listing of the two example markets is decoded to those two markets. -/
theorem GetAllMarkets_wellFormed_witness :
    [marketAA, marketBB].length < 2 ^ 64 ∧
    exampleSdk.preExec 0 flashPool "allMarkets" = .bytes (encodeMarkets [marketAA, marketBB]) ∧
    GetAllMarkets exampleSdk 0 flashPool = .ok [marketAA, marketBB] :=
  ⟨by decide, rfl,
    GetAllMarkets_wellFormed exampleSdk 0 flashPool [marketAA, marketBB] (by decide) rfl⟩

/-- A buffer that announces two markets and holds one is rejected. -/
theorem GetAllMarkets_rejects_malformed_witness :
    truncatedSdk.preExec 0 flashPool "allMarkets" = .bytes (encodeVarUint 2 ++ marketAA.val) ∧
    Malformed (encodeVarUint 2 ++ marketAA.val) ∧
    (GetAllMarkets truncatedSdk 0 flashPool =
        .error "getAllMarkets, source.NextVarUint error" ∨
      GetAllMarkets truncatedSdk 0 flashPool =
        .error "getAllMarkets, source.NextAddress error") :=
  ⟨rfl, Malformed.truncated 2 marketAA.val (by decide) (by decide),
    (GetAllMarkets_rejects_malformed truncatedSdk 0 flashPool
      (encodeVarUint 2 ++ marketAA.val) rfl).1
      (Malformed.truncated 2 marketAA.val (by decide) (by decide))⟩

/-- The first market answers and the second fails: the aggregation fails. -/
theorem TotalReserve_all_or_nothing_witness :
    GetAllMarkets secondFailsSdk 0 flashPool = .ok [marketAA, marketBB] ∧
    queryFails secondFailsSdk 1 marketAA = false ∧
    queryFails secondFailsSdk 2 marketBB = true ∧
    ∃ err, TotalReserve secondFailsSdk exampleConfig flashPool =
      .error ("TotalReserve, this.getTotalReserves error: " ++ err) :=
  ⟨by decide, by decide, by decide,
    (TotalReserve_all_or_nothing secondFailsSdk exampleConfig flashPool).2
      [marketAA, marketBB] 1 (by decide) (by decide) (by decide)⟩

/-- Two listed markets that the asset map does not name share the empty name:
all queries succeed and the returned mapping has one entry for two markets. -/
theorem TotalReserve_entries_counterexample :
    ∃ ms result, GetAllMarkets exampleSdk 0 flashPool = .ok ms ∧
      (∀ i (hi : i < ms.length), queryFails exampleSdk (i + 1) ms[i] = false) ∧
      TotalReserve exampleSdk unnamedConfig flashPool = .ok result ∧
      ms.length = 2 ∧ result.length = 1 :=
  ⟨[marketAA, marketBB], [("", "200")], by decide, by decide, by decide, rfl, rfl⟩

/-- Two markets named ETH and DAI give a mapping with two entries. -/
theorem TotalReserve_entries_witness :
    GetAllMarkets exampleSdk 0 flashPool = .ok [marketAA, marketBB] ∧
    (∀ i (hi : i < [marketAA, marketBB].length),
      queryFails exampleSdk (i + 1) [marketAA, marketBB][i] = false) ∧
    ∃ result, TotalReserve exampleSdk exampleConfig flashPool = .ok result ∧
      result.length = ([marketAA, marketBB].map (marketName exampleConfig)).dedup.length ∧
      result.length ≤ [marketAA, marketBB].length ∧
      (([marketAA, marketBB].map (marketName exampleConfig)).Nodup →
        result.length = [marketAA, marketBB].length) :=
  ⟨by decide, by decide,
    TotalReserve_entries exampleSdk exampleConfig flashPool [marketAA, marketBB]
      (by decide) (by decide)⟩

/-- The reserve 123456789012345678901234 is decoded, rendered and parsed back
without loss. -/
theorem TotalReserve_balance_exact_witness :
    (-2 ^ 127 : Int) ≤ 123456789012345678901234 ∧
    (123456789012345678901234 : Int) < 2 ^ 127 ∧
    largeReserveSdk.preExec 1 marketAA "totalReserves" =
      .bytes (encodeI128 123456789012345678901234) ∧
    bigIntString 123456789012345678901234 = "123456789012345678901234" ∧
    getTotalReserves largeReserveSdk 1 marketAA = .ok 123456789012345678901234 ∧
    parseBigInt (bigIntString 123456789012345678901234) = some 123456789012345678901234 :=
  ⟨by decide, by decide, rfl, by decide,
    (TotalReserve_balance_exact largeReserveSdk exampleConfig 1 marketAA
      123456789012345678901234 (by decide) (by decide) rfl).1,
    (TotalReserve_balance_exact largeReserveSdk exampleConfig 1 marketAA
      123456789012345678901234 (by decide) (by decide) rfl).2.2.2.1⟩

/-- With a clock advancing by 30 seconds per cycle from the start instant, the
loop has not returned after the cycle at start + 2 min and executes a sixth
cycle at start + 2 min 30 s. -/
theorem pollingLoop_thirty_second_ticks_counterexample :
    (∀ k, (thirtySecondEnv k).now = next + 30000000000 * k) ∧
    (pollingLoop exampleConfig flashPool next thirtySecondEnv 5 0).2 = false ∧
    (pollingLoop exampleConfig flashPool next thirtySecondEnv 6 0).2 = true ∧
    cycleTimes (pollingLoop exampleConfig flashPool next thirtySecondEnv 6 0).1 =
      [next, next + 30000000000, next + 60000000000, next + 90000000000,
        next + 120000000000, next + 150000000000] ∧
    cycleTimes (pollingLoop exampleConfig flashPool next thirtySecondEnv 6 0).1 ≠
      [next, next + 30000000000, next + 60000000000, next + 90000000000,
        next + 120000000000] ∧
    next + 120000000000 = next + twoMinutes :=
  ⟨fun _ => rfl, by decide, by decide, by decide, by decide, by decide⟩

/-- The six cycles executed over the example clock. -/
theorem pollingLoop_thirty_second_ticks_witness :
    (∀ k, (thirtySecondEnv k).now = next + 30000000000 * k) ∧ 6 ≤ 6 ∧
    (pollingLoop exampleConfig flashPool next thirtySecondEnv 6 0).2 = true ∧
    cycleTimes (pollingLoop exampleConfig flashPool next thirtySecondEnv 6 0).1 =
      [next, next + 30000000000, next + 60000000000, next + 90000000000,
        next + 120000000000, next + 150000000000] :=
  ⟨fun _ => rfl, by decide,
    pollingLoop_thirty_second_ticks exampleConfig flashPool next thirtySecondEnv
      (fun _ => rfl) 6 (by decide)⟩

/-- A failed cycle at the start instant is followed by the next cycle. -/
theorem loop_exit_test_witness :
    ¬ next + twoMinutes < (failingEnv 0).now ∧
    ∃ rest, cycleTimes (pollingLoop exampleConfig flashPool next failingEnv 2 0).1 =
      (failingEnv 0).now :: (failingEnv 1).now :: rest :=
  ⟨by decide,
    ((loop_exit_test exampleConfig flashPool next failingEnv 0 0).2.2.2 (by decide)).2⟩

/-- The end-to-end example: markets ETH and DAI with reserves 100 and 200. -/
theorem successful_cycle_content_witness :
    (List.map (marketName exampleConfig) [marketAA, marketBB]).Nodup ∧
    RangeOrder insertionOrderCycle ∧
    written (loopBody exampleConfig flashPool next insertionOrderCycle).1 =
      "ETH\t100\nDAI\t200\n" ∧
    ∃ lines,
      lines.Perm (List.zipWith
        (fun a r => marketName exampleConfig a ++ "\t" ++ bigIntString r ++ "\n")
        [marketAA, marketBB] [100, 200]) ∧
      written (loopBody exampleConfig flashPool next insertionOrderCycle).1 =
        String.join lines :=
  ⟨by decide, fun m => List.Perm.refl m, by decide,
    successful_cycle_content exampleConfig flashPool next insertionOrderCycle
      [marketAA, marketBB] [100, 200] rfl (by decide) (by decide) (by decide) rfl
      (fun i h1 _ => by
        have h : i < 2 := h1
        interval_cases i <;> rfl)
      (fun m => List.Perm.refl m)⟩

/-- Two cycles with the same chain client and asset map whose maps are
enumerated in different orders write different bytes. -/
theorem identical_responses_counterexample :
    RangeOrder insertionOrderCycle ∧ RangeOrder reverseOrderCycle ∧
    insertionOrderCycle.sdk = reverseOrderCycle.sdk ∧
    written (loopBody exampleConfig flashPool next insertionOrderCycle).1 =
      "ETH\t100\nDAI\t200\n" ∧
    written (loopBody exampleConfig flashPool next reverseOrderCycle).1 =
      "DAI\t200\nETH\t100\n" ∧
    written (loopBody exampleConfig flashPool next insertionOrderCycle).1 ≠
      written (loopBody exampleConfig flashPool next reverseOrderCycle).1 :=
  ⟨fun m => List.Perm.refl m, fun m => List.reverse_perm m, rfl, by decide, by decide,
    by decide⟩

/-- The two example cycles write the lines of the same two entries, one in
insertion order and one in the reverse order. -/
theorem identical_responses_same_lines_witness :
    RangeOrder insertionOrderCycle ∧ RangeOrder reverseOrderCycle ∧
    rangedMap (TotalReserve insertionOrderCycle.sdk exampleConfig flashPool) =
      [("ETH", "100"), ("DAI", "200")] ∧
    written (loopBody exampleConfig flashPool next insertionOrderCycle).1 =
      String.join ((insertionOrderCycle.order
        (rangedMap (TotalReserve insertionOrderCycle.sdk exampleConfig flashPool))).map
          entryLine) ∧
    written (loopBody exampleConfig flashPool next reverseOrderCycle).1 =
      String.join ((reverseOrderCycle.order
        (rangedMap (TotalReserve insertionOrderCycle.sdk exampleConfig flashPool))).map
          entryLine) :=
  ⟨fun m => List.Perm.refl m, fun m => List.reverse_perm m, by decide,
    (identical_responses_same_lines exampleConfig flashPool next insertionOrderCycle
      reverseOrderCycle rfl (fun _ _ _ _ => rfl) (fun m => List.Perm.refl m)
      (fun m => List.reverse_perm m)).2.1,
    (identical_responses_same_lines exampleConfig flashPool next insertionOrderCycle
      reverseOrderCycle rfl (fun _ _ _ _ => rfl) (fun m => List.Perm.refl m)
      (fun m => List.reverse_perm m)).2.2.1⟩

/-- C10: when `TotalReserve` fails, the cycle has created its file before the
call, logs the error, writes nothing, flushes and closes: the file is empty. -/
theorem failed_cycle_empty_file (cfg : Config) (flashAddress : Address) (start : Int)
    (c : Cycle) (err : String) (hord : RangeOrder c)
    (h : TotalReserve c.sdk cfg flashAddress = .error err) :
    (loopBody cfg flashAddress start c).1 =
      [Event.create c.now, Event.callTotalReserve true,
        Event.logError ("TotalReserve, err: " ++ err), Event.flush, Event.close] ++
        (if start + twoMinutes < c.now then [Event.logDone] else []) ∧
    written (loopBody cfg flashAddress start c).1 = "" :=
  loopBody_failed cfg flashAddress start c err hord h

/-- A cycle during which every invocation fails writes an empty file. -/
theorem failed_cycle_empty_file_witness :
    RangeOrder failingCycle ∧
    TotalReserve failingCycle.sdk exampleConfig flashPool = .error
      ("TotalReserve, this.GetAllMarkets error: " ++
        ("getAllMarkets, this.sdk.WasmVM.PreExecInvokeWasmVMContract error: " ++
          "connection refused")) ∧
    written (loopBody exampleConfig flashPool next failingCycle).1 = "" :=
  ⟨fun m => List.Perm.refl m, by decide,
    (failed_cycle_empty_file exampleConfig flashPool next failingCycle
      ("TotalReserve, this.GetAllMarkets error: " ++
        ("getAllMarkets, this.sdk.WasmVM.PreExecInvokeWasmVMContract error: " ++
          "connection refused"))
      (fun m => List.Perm.refl m) (by decide)).2⟩

end ReserveSnapshot
